import Mathlib

/-!
Verification development for the Metal basecall scheduler
(`dorado::basecall::MetalCaller`, src/dorado/basecall/MetalCaller.cpp).

The definitions below are a shallow embedding of that translation unit:
pure sizing arithmetic becomes Lean functions on `Nat`, the thread loops
become explicit state-passing functions, and the cross-device event
ordering becomes a trace-validity predicate.  All machine integers in the
source are non-negative in the reachable range, so they are modelled as
`Nat` with C++ truncating division mapped to `Nat` division.
-/

namespace MetalCaller

/-- `MTL_CORE_BATCH_SIZE` from the anonymous namespace: the accelerator's
native batch granularity (batch quantum). -/
def MTL_CORE_BATCH_SIZE : Nat := 48

/-- `kMaxBufferSize` from `set_chunk_batch_size`: `int64_t(1) << 29`. -/
def kMaxBufferSize : Nat := 2 ^ 29

/-- `complete_linear_out_size` from `set_chunk_batch_size`:
`out_chunk_size * batch_size * outsize * sizeof(float)`. -/
def complete_linear_out_size (out_chunk_size batch_size outsize : Nat) : Nat :=
  out_chunk_size * batch_size * outsize * 4

/-- The split-search loop of `set_chunk_batch_size`, candidate by candidate:
`split_search_from pieces sz s fuel` checks `s, s+1, ...` for `fuel` steps
(the loop runs while `m_out_split < num_batch_pieces`, so `fuel` counts the
remaining candidates strictly below `pieces`) and returns the first candidate
that divides `pieces` with `sz / candidate <= kMaxBufferSize`, or `pieces`
when the loop exits without breaking. -/
def split_search_from (pieces sz : Nat) : Nat → Nat → Nat
  | _, 0 => pieces
  | s, fuel + 1 =>
    if pieces % s = 0 ∧ sz / s ≤ kMaxBufferSize then s
    else split_search_from pieces sz (s + 1) fuel

/-- `m_out_split` as computed by the `for (m_out_split = 1; m_out_split <
num_batch_pieces; ++m_out_split)` loop in `set_chunk_batch_size`. -/
def compute_out_split (pieces sz : Nat) : Nat :=
  split_search_from pieces sz 1 (pieces - 1)

/-- The configuration fields written by `set_chunk_batch_size`, including the
shapes of the buffers allocated at its end (`m_scores_int8`, `m_posts_int16`,
`m_bwd` are lists of tensors; we record one shape triple per allocation). -/
structure CallerConfig where
  out_chunk_size : Nat
  in_chunk_size : Nat
  batch_size : Nat
  out_split : Nat
  out_batch_size : Nat
  scores_shapes : List (Nat × Nat × Nat)
  posts_shapes : List (Nat × Nat × Nat)
  bwd_shapes : List (Nat × Nat × Nat)
  deriving Repr, DecidableEq

/-- Model parameters read from `CRFModelConfig` by `set_chunk_batch_size`:
`stride`, `outsize`, and the derived state count `m_states = 4^state_len`. -/
structure ModelDims where
  stride : Nat
  outsize : Nat
  states : Nat
  deriving Repr, DecidableEq

/-- `MetalCaller::set_chunk_batch_size`: chunk-size decimation, the
split search, the derived per-split batch size, and the buffer allocations. -/
def set_chunk_batch_size (md : ModelDims) (chunk_size batch_size : Nat) :
    CallerConfig :=
  let out_chunk_size := chunk_size / md.stride
  let in_chunk_size := out_chunk_size * md.stride
  let sz := complete_linear_out_size out_chunk_size batch_size md.outsize
  let num_batch_pieces := batch_size / MTL_CORE_BATCH_SIZE
  let out_split := compute_out_split num_batch_pieces sz
  let out_batch_size := batch_size / out_split
  { out_chunk_size := out_chunk_size
    in_chunk_size := in_chunk_size
    batch_size := batch_size
    out_split := out_split
    out_batch_size := out_batch_size
    scores_shapes :=
      List.replicate out_split (out_chunk_size, out_batch_size, md.outsize)
    posts_shapes :=
      List.replicate out_split (out_batch_size, out_chunk_size + 1, md.states)
    bwd_shapes :=
      List.replicate out_split (out_batch_size, out_chunk_size + 1, md.states) }

/-- `decode::DecodedChunk`: sequence, quality string and move table. -/
structure DecodedChunk where
  sequence : String
  qstring : String
  moves : List Nat
  deriving Repr, DecidableEq

/-- `MetalCaller::NNTask` (input tensors are opaque handles here). -/
structure NNTask where
  input : Nat
  num_chunks : Nat
  decode_chunks_started : Nat
  decode_chunks_finished : Nat
  decode_complete_event_id : Nat
  deriving Repr, DecidableEq

/-- The `NNTask` constructor: counters start at zero, the event id at 0. -/
def mkNNTask (input num_chunks : Nat) : NNTask :=
  { input := input
    num_chunks := num_chunks
    decode_chunks_started := 0
    decode_chunks_finished := 0
    decode_complete_event_id := 0 }

/-- `std::deque::push_front`, as used by `call_chunks` on `m_input_queue`
and by `metal_thread_fn` on `m_decode_queue`. -/
def push_front {α : Type} (q : List α) (t : α) : List α := t :: q

/-- `q.back()` followed by `q.pop_back()`, as used by `metal_thread_fn` on
`m_input_queue` and by `decode_thread_fn` on `m_decode_queue`. -/
def pop_back {α : Type} (q : List α) : Option (α × List α) :=
  match q.getLast? with
  | none => none
  | some x => some (x, q.dropLast)

/-- The queue effect of `MetalCaller::call_chunks`: with zero chunks it
returns before touching any state; otherwise it pushes a fresh task onto
the front of the input queue (the blocking wait is modelled separately). -/
def call_chunks_enqueue (q : List NNTask) (input num_chunks : Nat)
    (out_chunks : List (Option DecodedChunk)) :
    List NNTask × List (Option DecodedChunk) :=
  if num_chunks = 0 then (q, out_chunks)
  else (push_front q (mkNNTask input num_chunks), out_chunks)

/-- Repeatedly pop the back of the queue, yielding elements in the order a
scheduler popping from the back would dequeue them; `fuel` bounds the
number of pops. -/
def drain_go {α : Type} : Nat → List α → List α
  | 0, _ => []
  | fuel + 1, q =>
    match pop_back q with
    | none => []
    | some (x, rest) => x :: drain_go fuel rest

/-- Dequeue every element of the queue in scheduler order. -/
def drain {α : Type} (q : List α) : List α := drain_go q.length q

/-- Push a list of elements one by one onto the front of the queue, in the
order clients would submit them. -/
def push_all {α : Type} (q : List α) (ts : List α) : List α :=
  ts.foldl push_front q

/-- Outcome of one retry-loop iteration in `metal_thread_fn`:
`forward_async` returning null, `run_scan_kernels` returning false, or a
fully successful submission. -/
inductive AttemptResult where
  | forwardFail
  | scanFail
  | success
  deriving Repr, DecidableEq

/-- Observable result of the retry loop: the final `cb_success` flag, the
number of iterations executed, and the number of 20ms sleeps performed. -/
structure RetryResult where
  cb_success : Bool
  attempts : Nat
  sleeps : Nat
  deriving Repr, DecidableEq

/-- The retry loop of `metal_thread_fn` (`for try_count in 0..<5`): a null
`forward_async` or a failed scan command buffer sleeps 20ms and retries;
success breaks out. `fuel` is the number of iterations left. -/
def retry_go (outcome : Nat → AttemptResult) :
    Nat → Nat → Nat → Nat → RetryResult
  | 0, _, attempts, sleeps =>
    { cb_success := false, attempts := attempts, sleeps := sleeps }
  | fuel + 1, t, attempts, sleeps =>
    match outcome t with
    | .success =>
      { cb_success := true, attempts := attempts + 1, sleeps := sleeps }
    | _ => retry_go outcome fuel (t + 1) (attempts + 1) (sleeps + 1)

/-- The full 5-attempt retry budget of `metal_thread_fn`. -/
def submit_retry_loop (outcome : Nat → AttemptResult) : RetryResult :=
  retry_go outcome 5 0 0 0

/-- What `metal_thread_fn` does with a dequeued task after the retry loop:
a surviving `cb_success = false` throws `std::runtime_error`, otherwise
the task is pushed onto the front of the decode queue. -/
inductive SubmitOutcome where
  | fatalError
  | handedToDecode (queue : List NNTask)
  deriving Repr, DecidableEq

/-- Retry loop plus hand-off / fatal-error decision for one task. -/
def process_task (outcome : Nat → AttemptResult) (decode_queue : List NNTask)
    (task : NNTask) : SubmitOutcome :=
  if (submit_retry_loop outcome).cb_success then
    .handedToDecode (push_front decode_queue task)
  else .fatalError

/-- The mutable state of a `MetalCaller` relevant to `terminate`/`restart`:
the buffer configuration, the two termination flags, and which worker
threads are running. -/
structure CallerState where
  cfg : CallerConfig
  terminate : Bool
  terminate_decode : Bool
  metal_thread : Bool
  num_decode_threads : Nat
  deriving Repr, DecidableEq

/-- `MetalCaller::start_threads`: launches the metal thread and
`max(1, perf_core_count - 1)` decode threads. -/
def start_threads (perf_cores : Nat) (s : CallerState) : CallerState :=
  { s with metal_thread := true, num_decode_threads := max 1 (perf_cores - 1) }

/-- `MetalCaller::restart`: only when terminated, clear both termination
flags and relaunch the worker threads; otherwise do nothing. -/
def restart (perf_cores : Nat) (s : CallerState) : CallerState :=
  if s.terminate then
    start_threads perf_cores { s with terminate := false, terminate_decode := false }
  else s

/-- Modelled from the spec: `utils::pad_to` (the header utils/math_utils.h
is not among the sources here); per the spec it rounds its argument up to
the next multiple of the batch quantum. -/
def pad_to (x m : Nat) : Nat := (x + m - 1) / m * m

/-- `std::clamp` on non-negative integers (requires `lo ≤ hi`). -/
def clampNat (v lo hi : Nat) : Nat := if v < lo then lo else if hi < v then hi else v

/-- `decode_buffer_size_per_elem` from `benchmark_batch_sizes`:
`out_chunk_size * (outsize + states * sizeof(int16) + states * sizeof(float))`. -/
def decode_buffer_size_per_elem (out_chunk_size outsize states : Nat) : Nat :=
  out_chunk_size * (outsize + states * 2 + states * 4)

/-- `max_batch_size` from `benchmark_batch_sizes`:
`clamp(pad_to(usable_memory / (2 * per_elem), 48), 48, 48 * core_count)`. -/
def max_batch_size (usable_memory per_elem core_count : Nat) : Nat :=
  clampNat (pad_to (usable_memory / (2 * per_elem)) MTL_CORE_BATCH_SIZE)
    MTL_CORE_BATCH_SIZE (MTL_CORE_BATCH_SIZE * core_count)

/-- `min_batch_size` from `benchmark_batch_sizes`:
`min(48 * core_count / 4, max_batch_size)`. -/
def min_batch_size (usable_memory per_elem core_count : Nat) : Nat :=
  min (MTL_CORE_BATCH_SIZE * core_count / 4)
    (max_batch_size usable_memory per_elem core_count)

/-- The candidate set `test_batch_sizes`: the maximum batch size plus the
16 evenly spaced smaller sizes (the float-valued spacing
`i * test_size_increment` is abstracted as a list of integer offsets from
`min_batch_size`, each bounded by `max_batch_size - min_batch_size`),
every one padded to the batch quantum. -/
def test_batch_sizes (usable_memory per_elem core_count : Nat)
    (offs : List Nat) : List Nat :=
  max_batch_size usable_memory per_elem core_count ::
    offs.map (fun d =>
      pad_to (min_batch_size usable_memory per_elem core_count + d)
        MTL_CORE_BATCH_SIZE)

/-- `std::numeric_limits<long long>::max()`, the initial best time. -/
def LLONG_MAX : Nat := 2 ^ 63 - 1

/-- The benchmarking selection loop of `benchmark_batch_sizes`: track the
lowest per-batch-element time (`t b`) and the batch size achieving it,
starting from `(LLONG_MAX, -1)`. -/
def select_best_batch (t : Nat → Nat) (cs : List Nat) : Nat × Int :=
  cs.foldl (fun best b => if t b < best.1 then (t b, (b : Int)) else best)
    (LLONG_MAX, -1)

/-- The batch-size selection in the `MetalCaller` constructor: a pinned
nonzero request is padded to the batch quantum, a zero request defers to
the benchmark. -/
def selected_batch_size (benchmark_result requested : Nat) : Nat :=
  if requested = 0 then benchmark_result
  else pad_to requested MTL_CORE_BATCH_SIZE

/-- `MetalCaller::create_input_tensor`: an `(N, T, C)` tensor of shape
`{m_batch_size, m_in_chunk_size, m_num_input_features}`. -/
def create_input_tensor (num_input_features : Nat) (cfg : CallerConfig) :
    List Nat :=
  [cfg.batch_size, cfg.in_chunk_size, num_input_features]

/-- Per-task decode state as seen by `decode_thread_fn`: the claim counter
`decode_chunks_started`, the completion counter `decode_chunks_finished`,
whether the task is still on the decode queue, and the output slots. -/
structure DecodeTaskState where
  num_chunks : Nat
  started : Nat
  finished : Nat
  in_queue : Bool
  slots : List (Option DecodedChunk)
  deriving Repr, DecidableEq

/-- One iteration of `decode_thread_fn` against a single task: claim chunk
index `started`, remove the task from the queue when this claims the last
chunk, decode, write the result into the slot at the claimed index only,
and increment `finished`. -/
def decode_one (decode : Nat → DecodedChunk) (s : DecodeTaskState) :
    DecodeTaskState :=
  if s.in_queue then
    let chunk_idx := s.started
    { num_chunks := s.num_chunks
      started := chunk_idx + 1
      finished := s.finished + 1
      in_queue := decide (chunk_idx ≠ s.num_chunks - 1)
      slots := s.slots.set chunk_idx (some (decode chunk_idx)) }
  else s

/-- `n` iterations of `decode_thread_fn` work on one task. -/
def decode_steps (decode : Nat → DecodedChunk) :
    Nat → DecodeTaskState → DecodeTaskState
  | 0, s => s
  | n + 1, s => decode_one decode (decode_steps decode n s)

/-- The decode state of a freshly submitted task with `K` chunks. -/
def init_task_state (K : Nat) : DecodeTaskState :=
  { num_chunks := K
    started := 0
    finished := 0
    in_queue := true
    slots := List.replicate K none }

/-- Events observable at the GPU/CPU buffer boundary: the accelerator
beginning to overwrite the shared score buffers for the task with a given
completion-event id (`forward_async`, which waits on event value `id - 1`),
a decode worker reading the buffers for a chunk of that task, and the CPU
setting the shared event's signalled value. -/
inductive GpuEvent where
  | submit (id : Nat)
  | decodeChunk (id chunk : Nat)
  | signal (id : Nat)
  deriving Repr, DecidableEq

/-- Number of decode reads for the task with event id `id` in a trace. -/
def countDecodes (id : Nat) (tr : List GpuEvent) : Nat :=
  tr.countP fun e =>
    match e with
    | .decodeChunk i _ => i == id
    | _ => false

/-- The shared event's signalled value after a trace
(`setSignaledValue` overwrites; creation value is 0). -/
def sigAfter (tr : List GpuEvent) : Nat :=
  tr.foldl (fun s e => match e with | .signal id => id | _ => s) 0

/-- The next completion-event id the scheduler would assign after a trace
(`next_decode_complete_event_id` starts at 1 and increments per task). -/
def nextIdAfter (tr : List GpuEvent) : Nat :=
  1 + tr.countP fun e => match e with | .submit _ => true | _ => false

/-- The completion-event ids of the submissions of a trace, in order. -/
def submit_ids (tr : List GpuEvent) : List Nat :=
  tr.filterMap fun e => match e with | .submit id => some id | _ => none

/-- Trace validity, threading the scheduler/event state: a submission
carries the next sequential id and may start only once the signalled value
has reached `id - 1` (the wait encoded by `forward_async`); a decode read
requires its task to have been submitted and claims at most `num_chunks`
chunks; the CPU signals `id` exactly when the last of that task's chunks
has finished decoding. -/
def valid_from (numChunks : Nat → Nat) (processed : List GpuEvent)
    (sig nextId : Nat) : List GpuEvent → Bool
  | [] => true
  | .submit id :: rest =>
    decide (id = nextId) && decide (id ≤ sig + 1) &&
      valid_from numChunks (processed ++ [.submit id]) sig (nextId + 1) rest
  | .decodeChunk id c :: rest =>
    decide (0 < id) && decide (id < nextId) &&
      decide (countDecodes id processed < numChunks id) &&
      valid_from numChunks (processed ++ [.decodeChunk id c]) sig nextId rest
  | .signal id :: rest =>
    decide (countDecodes id processed = numChunks id) &&
      valid_from numChunks (processed ++ [.signal id]) id nextId rest

/-- A trace is valid when it checks out from the initial state: signalled
value 0 (deemed signalled at event creation), next id 1. -/
def validTrace (numChunks : Nat → Nat) (tr : List GpuEvent) : Bool :=
  valid_from numChunks [] 0 1 tr

/-- The condition each event must satisfy against the state left by the
trace before it. -/
def stepOK (numChunks : Nat → Nat) (pre : List GpuEvent) : GpuEvent → Prop
  | .submit id => id = nextIdAfter pre ∧ id ≤ sigAfter pre + 1
  | .decodeChunk id _ =>
    id < nextIdAfter pre ∧ countDecodes id pre < numChunks id
  | .signal id => countDecodes id pre = numChunks id

/-- Any value returned by the split-search loop is either the fallback
`pieces` or a candidate in the scanned range satisfying both loop
conditions. -/
theorem split_search_from_mem (pieces sz : Nat) :
    ∀ fuel s, split_search_from pieces sz s fuel = pieces ∨
      (pieces % (split_search_from pieces sz s fuel) = 0 ∧
       sz / (split_search_from pieces sz s fuel) ≤ kMaxBufferSize ∧
       s ≤ split_search_from pieces sz s fuel ∧
       split_search_from pieces sz s fuel < s + fuel) := by
  intro fuel
  induction fuel with
  | zero => intro s; left; rfl
  | succ n ih =>
    intro s
    by_cases h : pieces % s = 0 ∧ sz / s ≤ kMaxBufferSize
    · right
      simp only [split_search_from, if_pos h]
      exact ⟨h.1, h.2, Nat.le_refl s, Nat.lt_add_of_pos_right (Nat.succ_pos n)⟩
    · simp only [split_search_from, if_neg h]
      rcases ih (s + 1) with h1 | ⟨h1, h2, h3, h4⟩
      · left; exact h1
      · right
        refine ⟨h1, h2, Nat.le_of_succ_le h3, ?_⟩
        omega

/-- No candidate scanned strictly before the split-search result satisfies
both loop conditions. -/
theorem split_search_from_min (pieces sz : Nat) :
    ∀ fuel s t, s ≤ t → t < split_search_from pieces sz s fuel →
      t < s + fuel → ¬(pieces % t = 0 ∧ sz / t ≤ kMaxBufferSize) := by
  intro fuel
  induction fuel with
  | zero => intro s t hst _ htf; omega
  | succ n ih =>
    intro s t hst htr htf
    by_cases h : pieces % s = 0 ∧ sz / s ≤ kMaxBufferSize
    · simp only [split_search_from, if_pos h] at htr
      omega
    · simp only [split_search_from, if_neg h] at htr
      rcases Nat.eq_or_lt_of_le hst with heq | hlt
      · subst heq; exact h
      · exact ih (s + 1) t hlt htr (by omega)

/-- The split-search result is positive and at most `pieces`
(when `pieces` is positive). -/
theorem compute_out_split_pos_le (pieces sz : Nat) (hp : 0 < pieces) :
    0 < compute_out_split pieces sz ∧ compute_out_split pieces sz ≤ pieces := by
  rcases split_search_from_mem pieces sz (pieces - 1) 1 with h | ⟨_, _, h3, h4⟩
  · unfold compute_out_split
    rw [h]; exact ⟨hp, Nat.le_refl pieces⟩
  · unfold compute_out_split
    constructor
    · exact h3
    · omega

/-- The split-search result divides `pieces`. -/
theorem compute_out_split_dvd (pieces sz : Nat) :
    compute_out_split pieces sz ∣ pieces := by
  rcases split_search_from_mem pieces sz (pieces - 1) 1 with h | ⟨h1, _, _, _⟩
  · unfold compute_out_split; rw [h]
  · exact Nat.dvd_of_mod_eq_zero h1

/-- Minimality of the chosen split: every positive divisor of `pieces`
meeting the byte bound is at least the chosen split. -/
theorem compute_out_split_min (pieces sz : Nat) (hp : 0 < pieces)
    (s : Nat) (hs : 0 < s) (hdvd : s ∣ pieces)
    (hsz : sz / s ≤ kMaxBufferSize) : compute_out_split pieces sz ≤ s := by
  by_contra hlt
  push_neg at hlt
  have hle : compute_out_split pieces sz ≤ pieces :=
    (compute_out_split_pos_le pieces sz hp).2
  have hmod : pieces % s = 0 := Nat.mod_eq_zero_of_dvd hdvd
  exact absurd ⟨hmod, hsz⟩
    (split_search_from_min pieces sz (pieces - 1) 1 s hs hlt (by omega))

/-- Either the chosen split meets the byte bound, or it is the fallback
`pieces`. -/
theorem compute_out_split_bound_or_fallback (pieces sz : Nat) :
    sz / compute_out_split pieces sz ≤ kMaxBufferSize ∨
      compute_out_split pieces sz = pieces := by
  rcases split_search_from_mem pieces sz (pieces - 1) 1 with h | ⟨_, h2, _, _⟩
  · right; exact h
  · left; exact h2

/-- C1: for every batch size that is a positive multiple of the batch
quantum 48, `set_chunk_batch_size` selects `m_out_split` as the smallest
positive divisor `s` of `pieces = batch_size / 48` with
`complete_linear_out_size / s ≤ 2^29`, or `pieces` itself when no such
divisor exists; consequently the split divides `pieces` exactly and the
per-split batch size `m_out_batch_size = batch_size / m_out_split` is an
exact multiple of 48. -/
theorem c1_split_selection (md : ModelDims) (chunk_size batch_size : Nat)
    (hdvd : MTL_CORE_BATCH_SIZE ∣ batch_size) (hpos : 0 < batch_size) :
    ((set_chunk_batch_size md chunk_size batch_size).out_split ∣
        batch_size / MTL_CORE_BATCH_SIZE) ∧
    0 < (set_chunk_batch_size md chunk_size batch_size).out_split ∧
    (∀ s, 0 < s → s ∣ batch_size / MTL_CORE_BATCH_SIZE →
      complete_linear_out_size (chunk_size / md.stride) batch_size md.outsize /
          s ≤ kMaxBufferSize →
      (set_chunk_batch_size md chunk_size batch_size).out_split ≤ s) ∧
    (complete_linear_out_size (chunk_size / md.stride) batch_size md.outsize /
        (set_chunk_batch_size md chunk_size batch_size).out_split ≤
          kMaxBufferSize ∨
      (set_chunk_batch_size md chunk_size batch_size).out_split =
        batch_size / MTL_CORE_BATCH_SIZE) ∧
    (set_chunk_batch_size md chunk_size batch_size).out_batch_size =
      batch_size / (set_chunk_batch_size md chunk_size batch_size).out_split ∧
    MTL_CORE_BATCH_SIZE ∣
      (set_chunk_batch_size md chunk_size batch_size).out_batch_size := by
  have hq : 0 < MTL_CORE_BATCH_SIZE := by norm_num [MTL_CORE_BATCH_SIZE]
  have hp : 0 < batch_size / MTL_CORE_BATCH_SIZE :=
    Nat.div_pos (Nat.le_of_dvd hpos hdvd) hq
  have hout : (set_chunk_batch_size md chunk_size batch_size).out_split =
      compute_out_split (batch_size / MTL_CORE_BATCH_SIZE)
        (complete_linear_out_size (chunk_size / md.stride) batch_size
          md.outsize) := rfl
  have hob : (set_chunk_batch_size md chunk_size batch_size).out_batch_size =
      batch_size / (set_chunk_batch_size md chunk_size batch_size).out_split :=
    rfl
  rw [hob, hout]
  set pieces := batch_size / MTL_CORE_BATCH_SIZE with hpieces
  set sz := complete_linear_out_size (chunk_size / md.stride) batch_size
    md.outsize with hsz
  set d := compute_out_split pieces sz with hd
  have hdvd2 : d ∣ pieces := compute_out_split_dvd pieces sz
  have hpos2 : 0 < d := (compute_out_split_pos_le pieces sz hp).1
  refine ⟨hdvd2, hpos2, ?_, compute_out_split_bound_or_fallback pieces sz,
      rfl, ?_⟩
  · intro s hs hsp hszs
    exact compute_out_split_min pieces sz hp s hs hsp hszs
  · obtain ⟨k, hk⟩ := hdvd2
    have hbatch : batch_size = MTL_CORE_BATCH_SIZE * pieces :=
      (Nat.mul_div_cancel' hdvd).symm
    refine ⟨k, ?_⟩
    rw [hbatch, hk,
      show MTL_CORE_BATCH_SIZE * (d * k) = MTL_CORE_BATCH_SIZE * k * d by
        ring]
    exact Nat.mul_div_cancel _ hpos2

/-- Witness for C1 at `stride = 5`, `outsize = 700`, `states = 16`,
`chunk_size = 2000`, `batch_size = 480`. -/
theorem c1_split_selection_witness :
    ((set_chunk_batch_size ⟨5, 700, 16⟩ 2000 480).out_split ∣
        480 / MTL_CORE_BATCH_SIZE) ∧
    0 < (set_chunk_batch_size ⟨5, 700, 16⟩ 2000 480).out_split ∧
    (∀ s, 0 < s → s ∣ 480 / MTL_CORE_BATCH_SIZE →
      complete_linear_out_size (2000 / (5 : Nat)) 480 700 / s ≤
        kMaxBufferSize →
      (set_chunk_batch_size ⟨5, 700, 16⟩ 2000 480).out_split ≤ s) ∧
    (complete_linear_out_size (2000 / (5 : Nat)) 480 700 /
        (set_chunk_batch_size ⟨5, 700, 16⟩ 2000 480).out_split ≤
          kMaxBufferSize ∨
      (set_chunk_batch_size ⟨5, 700, 16⟩ 2000 480).out_split =
        480 / MTL_CORE_BATCH_SIZE) ∧
    (set_chunk_batch_size ⟨5, 700, 16⟩ 2000 480).out_batch_size =
      480 / (set_chunk_batch_size ⟨5, 700, 16⟩ 2000 480).out_split ∧
    MTL_CORE_BATCH_SIZE ∣
      (set_chunk_batch_size ⟨5, 700, 16⟩ 2000 480).out_batch_size :=
  c1_split_selection ⟨5, 700, 16⟩ 2000 480 (by decide) (by decide)

/-- C8: for every chunk size and stride the output chunk length is
`chunk_size / stride` and the input chunk length is that value times the
stride; concretely, `chunk_size = 2000`, `stride = 5` gives output length
400, and for `batch_size = 480` (pieces = 10), whenever the complete
output bytes exceed the buffer limit for split 1 but not for split 2, the
chosen split is 2 with per-split batch size 240 and two copies of each
buffer allocated, each holding 240 chunks. -/
theorem c8_decimation_and_concrete_split (md : ModelDims)
    (chunk_size batch_size outsize states : Nat)
    (hgt : kMaxBufferSize < complete_linear_out_size 400 480 outsize)
    (hle : complete_linear_out_size 400 480 outsize / 2 ≤ kMaxBufferSize) :
    ((set_chunk_batch_size md chunk_size batch_size).out_chunk_size =
        chunk_size / md.stride ∧
      (set_chunk_batch_size md chunk_size batch_size).in_chunk_size =
        chunk_size / md.stride * md.stride) ∧
    (480 / MTL_CORE_BATCH_SIZE = 10 ∧
      (set_chunk_batch_size ⟨5, outsize, states⟩ 2000 480).out_chunk_size =
        400 ∧
      (set_chunk_batch_size ⟨5, outsize, states⟩ 2000 480).out_split = 2 ∧
      (set_chunk_batch_size ⟨5, outsize, states⟩ 2000 480).out_batch_size =
        240 ∧
      (set_chunk_batch_size ⟨5, outsize, states⟩ 2000 480).scores_shapes =
        List.replicate 2 (400, 240, outsize) ∧
      (set_chunk_batch_size ⟨5, outsize, states⟩ 2000 480).posts_shapes =
        List.replicate 2 (240, 401, states) ∧
      (set_chunk_batch_size ⟨5, outsize, states⟩ 2000 480).bwd_shapes =
        List.replicate 2 (240, 401, states)) := by
  set sz := complete_linear_out_size 400 480 outsize with hszdef
  have hd2 : compute_out_split 10 sz = 2 := by
    have hp : (0 : Nat) < 10 := by norm_num
    have hle2 : compute_out_split 10 sz ≤ 2 :=
      compute_out_split_min 10 sz hp 2 (by norm_num) ⟨5, by norm_num⟩ hle
    have hpos : 0 < compute_out_split 10 sz :=
      (compute_out_split_pos_le 10 sz hp).1
    have hne1 : compute_out_split 10 sz ≠ 1 := by
      intro h1
      rcases compute_out_split_bound_or_fallback 10 sz with hb | hf
      · rw [h1, Nat.div_one] at hb; omega
      · rw [h1] at hf; omega
    omega
  have hcfg : set_chunk_batch_size ⟨5, outsize, states⟩ 2000 480 =
      { out_chunk_size := 400
        in_chunk_size := 2000
        batch_size := 480
        out_split := 2
        out_batch_size := 240
        scores_shapes := List.replicate 2 (400, 240, outsize)
        posts_shapes := List.replicate 2 (240, 401, states)
        bwd_shapes := List.replicate 2 (240, 401, states) } := by
    unfold set_chunk_batch_size
    norm_num [MTL_CORE_BATCH_SIZE]
    rw [show complete_linear_out_size 400 480 outsize = sz from hszdef.symm,
      hd2]
    norm_num
  refine ⟨⟨rfl, rfl⟩, by norm_num [MTL_CORE_BATCH_SIZE], ?_, ?_, ?_, ?_, ?_,
    ?_⟩ <;> rw [hcfg]

/-- Witness for C8 at `outsize = 700`, `states = 16` (with the general
part instantiated at `stride = 3`, `chunk_size = 999`, `batch_size = 7`). -/
theorem c8_decimation_and_concrete_split_witness :
    ((set_chunk_batch_size ⟨3, 9, 81⟩ 999 7).out_chunk_size = 999 / 3 ∧
      (set_chunk_batch_size ⟨3, 9, 81⟩ 999 7).in_chunk_size =
        999 / 3 * 3) ∧
    (480 / MTL_CORE_BATCH_SIZE = 10 ∧
      (set_chunk_batch_size ⟨5, 700, 16⟩ 2000 480).out_chunk_size = 400 ∧
      (set_chunk_batch_size ⟨5, 700, 16⟩ 2000 480).out_split = 2 ∧
      (set_chunk_batch_size ⟨5, 700, 16⟩ 2000 480).out_batch_size = 240 ∧
      (set_chunk_batch_size ⟨5, 700, 16⟩ 2000 480).scores_shapes =
        List.replicate 2 (400, 240, 700) ∧
      (set_chunk_batch_size ⟨5, 700, 16⟩ 2000 480).posts_shapes =
        List.replicate 2 (240, 401, 16) ∧
      (set_chunk_batch_size ⟨5, 700, 16⟩ 2000 480).bwd_shapes =
        List.replicate 2 (240, 401, 16)) := by
  have h := c8_decimation_and_concrete_split ⟨3, 9, 81⟩ 999 7 700 16
    (by decide) (by decide)
  exact ⟨h.1, h.2⟩

/-- C7: a submission with `num_chunks == 0` returns immediately: it
enqueues no task, and both the input queue and the output vector are left
unchanged. -/
theorem c7_zero_chunk_noop (q : List NNTask) (input : Nat)
    (out_chunks : List (Option DecodedChunk)) :
    call_chunks_enqueue q input 0 out_chunks = (q, out_chunks) := rfl

/-- Popping the back of a queue holding `x :: xs` in reversed (push-front)
order yields the earliest-pushed element `x`. -/
theorem pop_back_reverse_cons {α : Type} (x : α) (xs : List α) :
    pop_back ((x :: xs).reverse) = some (x, xs.reverse) := by
  rw [List.reverse_cons]
  simp [pop_back, List.getLast?_concat, List.dropLast_concat]

/-- Pushing onto the front accumulates in reverse submission order. -/
theorem push_all_eq {α : Type} (ts : List α) :
    ∀ q : List α, push_all q ts = ts.reverse ++ q := by
  induction ts with
  | nil => intro q; simp [push_all]
  | cons t ts ih =>
    intro q
    have h : push_all q (t :: ts) = push_all (t :: q) ts := rfl
    rw [h, ih (t :: q)]
    simp

/-- Draining a reversed list by popping the back restores the original
order. -/
theorem drain_go_reverse {α : Type} :
    ∀ (fuel : Nat) (l : List α), l.length ≤ fuel →
      drain_go fuel l.reverse = l := by
  intro fuel
  induction fuel with
  | zero =>
    intro l hl
    have : l = [] := List.eq_nil_of_length_eq_zero (Nat.le_zero.mp hl)
    subst this
    rfl
  | succ n ih =>
    intro l hl
    cases l with
    | nil => rfl
    | cons x xs =>
      show drain_go (n + 1) ((x :: xs).reverse) = x :: xs
      simp only [drain_go, pop_back_reverse_cons]
      rw [ih xs (by simpa using Nat.le_of_succ_le_succ hl)]

/-- C4: tasks pushed to the front of the input queue in the order
`T1, ..., Tn` are dequeued from the back in exactly that order, and at
every stage the next task popped from the back is the earliest-submitted
pending task. -/
theorem c4_fifo_order (ts : List NNTask) (t : NNTask) :
    drain (push_all ([] : List NNTask) ts) = ts ∧
    pop_back (push_all ([] : List NNTask) (t :: ts)) =
      some (t, push_all ([] : List NNTask) ts) := by
  have hpush : ∀ l : List NNTask, push_all ([] : List NNTask) l = l.reverse :=
    fun l => by simpa using push_all_eq l []
  constructor
  · rw [drain, hpush, List.length_reverse]
    exact drain_go_reverse ts.length ts (Nat.le_refl _)
  · rw [hpush, hpush]
    exact pop_back_reverse_cons t ts

/-- If every attempt within the remaining budget fails, the retry loop
runs the whole budget, sleeping once per attempt, and reports failure. -/
theorem retry_go_all_fail (outcome : Nat → AttemptResult) :
    ∀ fuel t a s, (∀ j, j < fuel → outcome (t + j) ≠ .success) →
      retry_go outcome fuel t a s =
        { cb_success := false, attempts := a + fuel, sleeps := s + fuel } := by
  intro fuel
  induction fuel with
  | zero => intro t a s _; rfl
  | succ n ih =>
    intro t a s h
    have h0 : outcome t ≠ .success := by
      have := h 0 (Nat.succ_pos n); simpa using this
    cases hoc : outcome t with
    | success => exact absurd hoc h0
    | forwardFail =>
      simp only [retry_go, hoc]
      rw [ih (t + 1) (a + 1) (s + 1) (fun j hj => by
        rw [show t + 1 + j = t + (j + 1) by omega]
        exact h (j + 1) (by omega))]
      simp only [RetryResult.mk.injEq]
      exact ⟨trivial, by omega, by omega⟩
    | scanFail =>
      simp only [retry_go, hoc]
      rw [ih (t + 1) (a + 1) (s + 1) (fun j hj => by
        rw [show t + 1 + j = t + (j + 1) by omega]
        exact h (j + 1) (by omega))]
      simp only [RetryResult.mk.injEq]
      exact ⟨trivial, by omega, by omega⟩

/-- If the first success within the budget is the `k`-th attempt
(0-based), the retry loop stops there with `k + 1` attempts and `k`
sleeps. -/
theorem retry_go_success_at (outcome : Nat → AttemptResult) :
    ∀ fuel t a s k, k < fuel → outcome (t + k) = .success →
      (∀ j, j < k → outcome (t + j) ≠ .success) →
      retry_go outcome fuel t a s =
        { cb_success := true, attempts := a + k + 1, sleeps := s + k } := by
  intro fuel
  induction fuel with
  | zero => intro t a s k hk; omega
  | succ n ih =>
    intro t a s k hk hsucc hmin
    cases k with
    | zero =>
      simp only [Nat.add_zero] at hsucc
      simp [retry_go, hsucc]
    | succ m =>
      have h0 : outcome t ≠ .success := by
        have := hmin 0 (Nat.succ_pos m); simpa using this
      cases hoc : outcome t with
      | success => exact absurd hoc h0
      | forwardFail =>
        simp only [retry_go, hoc]
        rw [ih (t + 1) (a + 1) (s + 1) m (by omega)
          (by rw [show t + 1 + m = t + (m + 1) by omega]; exact hsucc)
          (fun j hj => by
            rw [show t + 1 + j = t + (j + 1) by omega]
            exact hmin (j + 1) (by omega))]
        simp only [RetryResult.mk.injEq]
        exact ⟨trivial, by omega, by omega⟩
      | scanFail =>
        simp only [retry_go, hoc]
        rw [ih (t + 1) (a + 1) (s + 1) m (by omega)
          (by rw [show t + 1 + m = t + (m + 1) by omega]; exact hsucc)
          (fun j hj => by
            rw [show t + 1 + j = t + (j + 1) by omega]
            exact hmin (j + 1) (by omega))]
        simp only [RetryResult.mk.injEq]
        exact ⟨trivial, by omega, by omega⟩

/-- C3: when every attempt fails the scheduler makes exactly 5 attempts
with a 20ms sleep after each and then raises a fatal error instead of
hanging or dropping the task; a first success at attempt `k` stops the
retrying after `k + 1` attempts and hands the task to the decode queue. -/
theorem c3_retry_budget (outcome : Nat → AttemptResult) (q : List NNTask)
    (task : NNTask) :
    ((∀ t, t < 5 → outcome t ≠ .success) →
      submit_retry_loop outcome =
        { cb_success := false, attempts := 5, sleeps := 5 } ∧
      process_task outcome q task = .fatalError) ∧
    (∀ k, k < 5 → outcome k = .success →
      (∀ j, j < k → outcome j ≠ .success) →
      submit_retry_loop outcome =
        { cb_success := true, attempts := k + 1, sleeps := k } ∧
      process_task outcome q task =
        .handedToDecode (push_front q task)) := by
  constructor
  · intro h
    have hloop : submit_retry_loop outcome =
        { cb_success := false, attempts := 5, sleeps := 5 } := by
      have := retry_go_all_fail outcome 5 0 0 0 (fun j hj => by
        simpa using h j hj)
      simpa [submit_retry_loop] using this
    exact ⟨hloop, by simp [process_task, hloop]⟩
  · intro k hk hsucc hmin
    have hloop : submit_retry_loop outcome =
        { cb_success := true, attempts := k + 1, sleeps := k } := by
      have := retry_go_success_at outcome 5 0 0 0 k hk (by simpa using hsucc)
        (fun j hj => by simpa using hmin j hj)
      simpa [submit_retry_loop] using this
    exact ⟨hloop, by simp [process_task, hloop]⟩

/-- Witness for C3: an always-failing model exhausts the budget fatally;
a model succeeding on the third attempt stops there and hands off. -/
theorem c3_retry_budget_witness :
    (submit_retry_loop (fun _ => .forwardFail) =
        { cb_success := false, attempts := 5, sleeps := 5 } ∧
      process_task (fun _ => .forwardFail) [] (mkNNTask 7 3) =
        .fatalError) ∧
    (submit_retry_loop (fun t => if t = 2 then .success else .scanFail) =
        { cb_success := true, attempts := 3, sleeps := 2 } ∧
      process_task (fun t => if t = 2 then .success else .scanFail) []
          (mkNNTask 7 3) =
        .handedToDecode (push_front [] (mkNNTask 7 3))) := by
  constructor
  · exact (c3_retry_budget (fun _ => .forwardFail) [] (mkNNTask 7 3)).1
      (by decide)
  · exact (c3_retry_budget (fun t => if t = 2 then .success else .scanFail)
      [] (mkNNTask 7 3)).2 2 (by decide) (by decide) (by decide)

/-- C9: called on a terminated caller, `restart` clears both termination
flags and relaunches the metal thread and the decode workers while leaving
the buffer configuration untouched; called while not terminated it changes
nothing. -/
theorem c9_restart_frame (pc : Nat) (s : CallerState) :
    (s.terminate = true →
      restart pc s =
        { cfg := s.cfg
          terminate := false
          terminate_decode := false
          metal_thread := true
          num_decode_threads := max 1 (pc - 1) }) ∧
    (s.terminate = false → restart pc s = s) := by
  constructor
  · intro h; simp [restart, h, start_threads]
  · intro h; simp [restart, h]

/-- Witness for C9 at a terminated and a non-terminated state. -/
theorem c9_restart_frame_witness :
    restart 8
        { cfg := set_chunk_batch_size ⟨5, 4, 16⟩ 100 48
          terminate := true
          terminate_decode := true
          metal_thread := false
          num_decode_threads := 0 } =
      { cfg := set_chunk_batch_size ⟨5, 4, 16⟩ 100 48
        terminate := false
        terminate_decode := false
        metal_thread := true
        num_decode_threads := 7 } ∧
    restart 8
        { cfg := set_chunk_batch_size ⟨5, 4, 16⟩ 100 48
          terminate := false
          terminate_decode := false
          metal_thread := true
          num_decode_threads := 7 } =
      { cfg := set_chunk_batch_size ⟨5, 4, 16⟩ 100 48
        terminate := false
        terminate_decode := false
        metal_thread := true
        num_decode_threads := 7 } := by
  constructor
  · have h := (c9_restart_frame 8
      { cfg := set_chunk_batch_size ⟨5, 4, 16⟩ 100 48
        terminate := true
        terminate_decode := true
        metal_thread := false
        num_decode_threads := 0 }).1 rfl
    simpa using h
  · exact (c9_restart_frame 8
      { cfg := set_chunk_batch_size ⟨5, 4, 16⟩ 100 48
        terminate := false
        terminate_decode := false
        metal_thread := true
        num_decode_threads := 7 }).2 rfl

/-- `pad_to` yields a multiple of its second argument. -/
theorem pad_to_dvd (x m : Nat) : m ∣ pad_to x m :=
  Dvd.intro_left _ rfl

/-- `pad_to` rounds up: the result is at least `x` and less than `x + m`. -/
theorem pad_to_le_lt (x m : Nat) (hm : 0 < m) :
    x ≤ pad_to x m ∧ pad_to x m < x + m := by
  cases x with
  | zero =>
    have h0 : pad_to 0 m = 0 := by
      unfold pad_to
      rw [show 0 + m - 1 = m - 1 by omega, Nat.div_eq_of_lt (by omega)]
      exact Nat.zero_mul m
    rw [h0]
    omega
  | succ y =>
    have hpad : pad_to (y + 1) m = (y / m + 1) * m := by
      unfold pad_to
      rw [show y + 1 + m - 1 = y + m by omega, Nat.add_div_right y hm]
    have ha := Nat.div_add_mod y m
    have hb : y % m < m := Nat.mod_lt y hm
    rw [hpad, add_mul, one_mul, mul_comm (y / m) m]
    omega

/-- `pad_to` is the identity exactly on multiples of `m`. -/
theorem pad_to_eq_iff (x m : Nat) (hm : 0 < m) :
    pad_to x m = x ↔ m ∣ x := by
  constructor
  · intro h
    rw [← h]
    exact pad_to_dvd x m
  · intro hdvd
    have h1 := (pad_to_le_lt x m hm).1
    have h2 := (pad_to_le_lt x m hm).2
    have h3 : m ∣ pad_to x m - x := Nat.dvd_sub' (pad_to_dvd x m) hdvd
    have h4 : pad_to x m - x = 0 := Nat.eq_zero_of_dvd_of_lt h3 (by omega)
    omega

/-- `pad_to x m` is the least multiple of `m` that is at least `x`. -/
theorem pad_to_le_of_le (x y m : Nat) (hm : 0 < m) (hxy : x ≤ y)
    (hdvd : m ∣ y) : pad_to x m ≤ y := by
  by_contra h
  push_neg at h
  have h3 : m ∣ pad_to x m - y := Nat.dvd_sub' (pad_to_dvd x m) hdvd
  have h5 : m ≤ pad_to x m - y := Nat.le_of_dvd (by omega) h3
  have h6 := (pad_to_le_lt x m hm).2
  omega

/-- C10: a pinned nonzero batch size is rounded up to the next multiple of
the batch quantum 48 — equal to the request only when the request is
already a multiple of 48 — and both the stored batch size and the first
dimension of the input tensor created for submissions are this padded
value. -/
theorem c10_pinned_batch_padded (md : ModelDims)
    (chunk_size requested benchmark_result num_input_features : Nat)
    (hreq : requested ≠ 0) :
    selected_batch_size benchmark_result requested =
      pad_to requested MTL_CORE_BATCH_SIZE ∧
    MTL_CORE_BATCH_SIZE ∣ selected_batch_size benchmark_result requested ∧
    requested ≤ selected_batch_size benchmark_result requested ∧
    selected_batch_size benchmark_result requested <
      requested + MTL_CORE_BATCH_SIZE ∧
    (selected_batch_size benchmark_result requested = requested ↔
      MTL_CORE_BATCH_SIZE ∣ requested) ∧
    (set_chunk_batch_size md chunk_size
        (selected_batch_size benchmark_result requested)).batch_size =
      selected_batch_size benchmark_result requested ∧
    (create_input_tensor num_input_features
        (set_chunk_batch_size md chunk_size
          (selected_batch_size benchmark_result requested))).head? =
      some (selected_batch_size benchmark_result requested) := by
  have hm : 0 < MTL_CORE_BATCH_SIZE := by norm_num [MTL_CORE_BATCH_SIZE]
  have hsel : selected_batch_size benchmark_result requested =
      pad_to requested MTL_CORE_BATCH_SIZE := by
    simp [selected_batch_size, hreq]
  refine ⟨hsel, ?_, ?_, ?_, ?_, rfl, rfl⟩
  · rw [hsel]; exact pad_to_dvd _ _
  · rw [hsel]; exact (pad_to_le_lt _ _ hm).1
  · rw [hsel]; exact (pad_to_le_lt _ _ hm).2
  · rw [hsel]; exact pad_to_eq_iff _ _ hm

/-- Witness for C10 at a pinned request of 100, padded to 144. -/
theorem c10_pinned_batch_padded_witness :
    selected_batch_size 999 100 = pad_to 100 MTL_CORE_BATCH_SIZE ∧
    MTL_CORE_BATCH_SIZE ∣ selected_batch_size 999 100 ∧
    100 ≤ selected_batch_size 999 100 ∧
    selected_batch_size 999 100 < 100 + MTL_CORE_BATCH_SIZE ∧
    (selected_batch_size 999 100 = 100 ↔ MTL_CORE_BATCH_SIZE ∣ 100) ∧
    (set_chunk_batch_size ⟨5, 4, 16⟩ 2000
        (selected_batch_size 999 100)).batch_size =
      selected_batch_size 999 100 ∧
    (create_input_tensor 1
        (set_chunk_batch_size ⟨5, 4, 16⟩ 2000
          (selected_batch_size 999 100))).head? =
      some (selected_batch_size 999 100) :=
  c10_pinned_batch_padded ⟨5, 4, 16⟩ 2000 100 999 1 (by decide)

/-- Closed form of `j ≤ K` decode iterations on a fresh task with `K`
chunks: both counters equal `j`, the task leaves the queue exactly when
the last chunk is claimed, and precisely the first `j` slots are filled,
each with the decode of its own chunk index. -/
theorem decode_steps_closed (decode : Nat → DecodedChunk) (K : Nat)
    (hK : 0 < K) :
    ∀ j, j ≤ K → decode_steps decode j (init_task_state K) =
      { num_chunks := K
        started := j
        finished := j
        in_queue := decide (j < K)
        slots := (List.range K).map fun i =>
          if i < j then some (decode i) else none } := by
  intro j
  induction j with
  | zero =>
    intro _
    show init_task_state K = _
    unfold init_task_state
    simp only [DecodeTaskState.mk.injEq]
    refine ⟨trivial, trivial, trivial, (decide_eq_true hK).symm, ?_⟩
    have hmap : ((List.range K).map fun i =>
        if i < 0 then some (decode i) else none) =
        (List.range K).map fun _ => (none : Option DecodedChunk) := by
      apply List.map_congr_left
      intro a _
      simp
    rw [hmap, List.map_const', List.length_range]
  | succ j ih =>
    intro hj1
    have hj : j < K := hj1
    have hstep : decode_steps decode (j + 1) (init_task_state K) =
        decode_one decode (decode_steps decode j (init_task_state K)) := rfl
    rw [hstep, ih (Nat.le_of_lt hj)]
    unfold decode_one
    simp only [decide_eq_true hj, if_true]
    simp only [DecodeTaskState.mk.injEq]
    refine ⟨trivial, trivial, trivial, decide_eq_decide.mpr (by omega), ?_⟩
    apply List.ext_getElem
    · simp
    · intro i h1 h2
      simp only [List.length_set, List.length_map, List.length_range] at h1
      by_cases hij : j = i
      · subst hij
        rw [List.getElem_set_self (by simpa using h1)]
        rw [List.getElem_map, List.getElem_range]
        simp
      · rw [List.getElem_set_of_ne hij]
        rw [List.getElem_map, List.getElem_range,
          List.getElem_map, List.getElem_range]
        have : i < j ↔ i < j + 1 := by omega
        simp [this]

/-- C5: a task with `K > 0` chunks is fully drained after exactly `K`
decode iterations: `decode_chunks_finished = K`, every output slot is
populated with the decode of its own chunk index, the task has left the
decode queue, and the chunk indices are claimed in order — iteration
`j` claims exactly index `j` and writes only the slot at that index. -/
theorem c5_completion_accounting (decode : Nat → DecodedChunk) (K : Nat)
    (hK : 0 < K) :
    (decode_steps decode K (init_task_state K)).finished = K ∧
    (decode_steps decode K (init_task_state K)).started = K ∧
    (decode_steps decode K (init_task_state K)).in_queue = false ∧
    (decode_steps decode K (init_task_state K)).slots =
      (List.range K).map (fun i => some (decode i)) ∧
    (∀ j, j < K →
      (decode_steps decode j (init_task_state K)).started = j ∧
      (decode_steps decode (j + 1) (init_task_state K)).slots =
        (decode_steps decode j (init_task_state K)).slots.set j
          (some (decode j))) := by
  have hfin := decode_steps_closed decode K hK K (Nat.le_refl K)
  refine ⟨by rw [hfin], by rw [hfin], by rw [hfin]; simp, ?_, ?_⟩
  · rw [hfin]
    apply List.map_congr_left
    intro a ha
    rw [List.mem_range] at ha
    simp [ha]
  · intro j hj
    have h1 := decode_steps_closed decode K hK j (Nat.le_of_lt hj)
    constructor
    · rw [h1]
    · have hstep : decode_steps decode (j + 1) (init_task_state K) =
          decode_one decode (decode_steps decode j (init_task_state K)) :=
        rfl
      rw [hstep, h1]
      unfold decode_one
      simp only [decide_eq_true hj, if_true]

/-- Witness for C5 at `K = 3` with a decode stub. -/
theorem c5_completion_accounting_witness :
    (decode_steps (fun i => ⟨"A", "!", [i]⟩) 3 (init_task_state 3)).finished
        = 3 ∧
    (decode_steps (fun i => ⟨"A", "!", [i]⟩) 3 (init_task_state 3)).started
        = 3 ∧
    (decode_steps (fun i => ⟨"A", "!", [i]⟩) 3 (init_task_state 3)).in_queue
        = false ∧
    (decode_steps (fun i => ⟨"A", "!", [i]⟩) 3 (init_task_state 3)).slots =
      (List.range 3).map (fun i => some (⟨"A", "!", [i]⟩ : DecodedChunk)) ∧
    (∀ j, j < 3 →
      (decode_steps (fun i => ⟨"A", "!", [i]⟩) j
          (init_task_state 3)).started = j ∧
      (decode_steps (fun i => ⟨"A", "!", [i]⟩) (j + 1)
          (init_task_state 3)).slots =
        (decode_steps (fun i => ⟨"A", "!", [i]⟩) j
            (init_task_state 3)).slots.set j
          (some ⟨"A", "!", [j]⟩)) :=
  c5_completion_accounting (fun i => ⟨"A", "!", [i]⟩) 3 (by decide)

/-- The maximum benchmark batch size is a positive multiple of the batch
quantum and at most `48 * core_count`. -/
theorem max_batch_size_props (u p cc : Nat) (hcc : 1 ≤ cc) :
    MTL_CORE_BATCH_SIZE ∣ max_batch_size u p cc ∧
    MTL_CORE_BATCH_SIZE ≤ max_batch_size u p cc ∧
    max_batch_size u p cc ≤ MTL_CORE_BATCH_SIZE * cc := by
  unfold max_batch_size clampNat
  split_ifs with h1 h2
  · refine ⟨dvd_refl _, Nat.le_refl _, ?_⟩
    calc MTL_CORE_BATCH_SIZE = MTL_CORE_BATCH_SIZE * 1 := (mul_one _).symm
      _ ≤ MTL_CORE_BATCH_SIZE * cc := Nat.mul_le_mul_left _ hcc
  · refine ⟨dvd_mul_right _ _, ?_, Nat.le_refl _⟩
    calc MTL_CORE_BATCH_SIZE = MTL_CORE_BATCH_SIZE * 1 := (mul_one _).symm
      _ ≤ MTL_CORE_BATCH_SIZE * cc := Nat.mul_le_mul_left _ hcc
  · exact ⟨pad_to_dvd _ _, not_lt.mp h1, not_lt.mp h2⟩

/-- The minimum benchmark batch size is positive and at most the maximum. -/
theorem min_batch_size_props (u p cc : Nat) (hcc : 1 ≤ cc) :
    1 ≤ min_batch_size u p cc ∧
    min_batch_size u p cc ≤ max_batch_size u p cc := by
  have h := (max_batch_size_props u p cc hcc).2.1
  constructor
  · unfold min_batch_size
    simp only [MTL_CORE_BATCH_SIZE] at *
    omega
  · exact Nat.min_le_right _ _

/-- Every candidate in the benchmark set is a multiple of the batch
quantum, at least the quantum, and at most the maximum batch size. -/
theorem test_batch_sizes_contract (u p cc : Nat) (offs : List Nat)
    (hcc : 1 ≤ cc)
    (hoffs : ∀ d ∈ offs,
      min_batch_size u p cc + d ≤ max_batch_size u p cc) :
    ∀ b ∈ test_batch_sizes u p cc offs,
      MTL_CORE_BATCH_SIZE ∣ b ∧ MTL_CORE_BATCH_SIZE ≤ b ∧
        b ≤ max_batch_size u p cc := by
  have hq : (0 : Nat) < MTL_CORE_BATCH_SIZE := by
    norm_num [MTL_CORE_BATCH_SIZE]
  have hmax := max_batch_size_props u p cc hcc
  intro b hb
  rcases List.mem_cons.mp hb with hb | hb
  · subst hb
    exact ⟨hmax.1, hmax.2.1, Nat.le_refl _⟩
  · obtain ⟨d, hd, hbd⟩ := List.mem_map.mp hb
    subst hbd
    have hmin := min_batch_size_props u p cc hcc
    refine ⟨pad_to_dvd _ _, ?_, ?_⟩
    · have h1 : 1 ≤ min_batch_size u p cc + d := by omega
      have h2 := (pad_to_le_lt (min_batch_size u p cc + d)
        MTL_CORE_BATCH_SIZE hq).1
      exact Nat.le_of_dvd (by omega) (pad_to_dvd _ _)
    · exact pad_to_le_of_le _ _ _ hq (hoffs d hd) hmax.1

/-- The first component of the benchmark fold never increases. -/
theorem select_fold_fst_le (t : Nat → Nat) :
    ∀ (cs : List Nat) (acc : Nat × Int),
      (cs.foldl
          (fun best b => if t b < best.1 then (t b, (b : Int)) else best)
          acc).1 ≤ acc.1 := by
  intro cs
  induction cs with
  | nil => intro acc; exact Nat.le_refl _
  | cons c cs ih =>
    intro acc
    have hstep : (if t c < acc.1 then (t c, (c : Int)) else acc).1 ≤
        acc.1 := by
      split_ifs with h
      · exact Nat.le_of_lt h
      · exact Nat.le_refl _
    exact Nat.le_trans (ih _) hstep

/-- The benchmark fold returns either its initial accumulator or the time
and batch size of some candidate. -/
theorem select_fold_mem (t : Nat → Nat) :
    ∀ (cs : List Nat) (acc : Nat × Int),
      cs.foldl
          (fun best b => if t b < best.1 then (t b, (b : Int)) else best)
          acc = acc ∨
        ∃ b ∈ cs,
          cs.foldl
              (fun best b => if t b < best.1 then (t b, (b : Int)) else best)
              acc = (t b, (b : Int)) := by
  intro cs
  induction cs with
  | nil => intro acc; left; rfl
  | cons c cs ih =>
    intro acc
    have hfold : (c :: cs).foldl
        (fun best b => if t b < best.1 then (t b, (b : Int)) else best)
        acc = cs.foldl
        (fun best b => if t b < best.1 then (t b, (b : Int)) else best)
        (if t c < acc.1 then (t c, (c : Int)) else acc) := rfl
    rcases ih (if t c < acc.1 then (t c, (c : Int)) else acc) with h | h
    · rw [hfold, h]
      split_ifs with hc
      · right
        exact ⟨c, List.mem_cons_self c cs, rfl⟩
      · left; rfl
    · obtain ⟨b, hbmem, hbeq⟩ := h
      right
      exact ⟨b, List.mem_cons_of_mem c hbmem, by rw [hfold, hbeq]⟩

/-- C6: every candidate batch size the auto-tuner benchmarks is a multiple
of the batch quantum 48, at least 48, and at most
`max_batch = clamp(pad_to(usable / (2 * per_elem), 48), 48, 48 * cores)`;
hence, whatever the measured timings, the selected batch size is one of
the candidates and the asserted contract (at least 48 and divisible by 48)
holds for it. -/
theorem c6_autotuner_contract (u p cc : Nat) (offs : List Nat)
    (t : Nat → Nat) (hcc : 1 ≤ cc)
    (hoffs : ∀ d ∈ offs,
      min_batch_size u p cc + d ≤ max_batch_size u p cc)
    (ht : ∀ b ∈ test_batch_sizes u p cc offs, t b < LLONG_MAX) :
    (∀ b ∈ test_batch_sizes u p cc offs,
      MTL_CORE_BATCH_SIZE ∣ b ∧ MTL_CORE_BATCH_SIZE ≤ b ∧
        b ≤ max_batch_size u p cc) ∧
    ∃ b ∈ test_batch_sizes u p cc offs,
      (select_best_batch t (test_batch_sizes u p cc offs)).2 = (b : Int) ∧
      MTL_CORE_BATCH_SIZE ∣ b ∧ MTL_CORE_BATCH_SIZE ≤ b ∧
        b ≤ max_batch_size u p cc := by
  have hcontract := test_batch_sizes_contract u p cc offs hcc hoffs
  refine ⟨hcontract, ?_⟩
  set cs := test_batch_sizes u p cc offs with hcs
  have hsel : select_best_batch t cs = cs.foldl
      (fun best b => if t b < best.1 then (t b, (b : Int)) else best)
      (LLONG_MAX, -1) := rfl
  rcases select_fold_mem t cs (LLONG_MAX, -1) with h | h
  · exfalso
    have hmem0 : max_batch_size u p cc ∈ cs := List.mem_cons_self _ _
    have hfold : cs.foldl
        (fun best b => if t b < best.1 then (t b, (b : Int)) else best)
        (LLONG_MAX, -1) = (cs.tail).foldl
        (fun best b => if t b < best.1 then (t b, (b : Int)) else best)
        (if t (max_batch_size u p cc) < LLONG_MAX then
          (t (max_batch_size u p cc), (max_batch_size u p cc : Int))
        else (LLONG_MAX, -1)) := rfl
    have ht0 := ht _ hmem0
    rw [if_pos ht0] at hfold
    have hle := select_fold_fst_le t cs.tail
      (t (max_batch_size u p cc), (max_batch_size u p cc : Int))
    rw [← hfold, h] at hle
    simp only at hle
    omega
  · obtain ⟨b, hbmem, hbeq⟩ := h
    have hc := hcontract b hbmem
    exact ⟨b, hbmem, by rw [hsel, hbeq], hc.1, hc.2.1, hc.2.2⟩

/-- Witness for C6: 8 GiB usable memory, the per-element decode size of a
400-sample output chunk with `outsize = 700` and 16 states, 20 device
cores, two offsets, and per-element time equal to the batch size. -/
theorem c6_autotuner_contract_witness :
    (∀ b ∈ test_batch_sizes 8589934592
        (decode_buffer_size_per_elem 400 700 16) 20 [0, 480],
      MTL_CORE_BATCH_SIZE ∣ b ∧ MTL_CORE_BATCH_SIZE ≤ b ∧
        b ≤ max_batch_size 8589934592
          (decode_buffer_size_per_elem 400 700 16) 20) ∧
    ∃ b ∈ test_batch_sizes 8589934592
        (decode_buffer_size_per_elem 400 700 16) 20 [0, 480],
      (select_best_batch (fun b => b)
          (test_batch_sizes 8589934592
            (decode_buffer_size_per_elem 400 700 16) 20 [0, 480])).2 =
        (b : Int) ∧
      MTL_CORE_BATCH_SIZE ∣ b ∧ MTL_CORE_BATCH_SIZE ≤ b ∧
        b ≤ max_batch_size 8589934592
          (decode_buffer_size_per_elem 400 700 16) 20 :=
  c6_autotuner_contract 8589934592 (decode_buffer_size_per_elem 400 700 16)
    20 [0, 480] (fun b => b) (by decide) (by decide) (by decide)

/-- Appending a submission leaves the signalled value unchanged. -/
theorem sigAfter_append_submit (l : List GpuEvent) (id : Nat) :
    sigAfter (l ++ [GpuEvent.submit id]) = sigAfter l := by
  simp [sigAfter, List.foldl_append]

/-- Appending a decode read leaves the signalled value unchanged. -/
theorem sigAfter_append_decode (l : List GpuEvent) (id c : Nat) :
    sigAfter (l ++ [GpuEvent.decodeChunk id c]) = sigAfter l := by
  simp [sigAfter, List.foldl_append]

/-- Appending a signal sets the signalled value. -/
theorem sigAfter_append_signal (l : List GpuEvent) (id : Nat) :
    sigAfter (l ++ [GpuEvent.signal id]) = id := by
  simp [sigAfter, List.foldl_append]

/-- Appending a submission increments the next id. -/
theorem nextIdAfter_append_submit (l : List GpuEvent) (id : Nat) :
    nextIdAfter (l ++ [GpuEvent.submit id]) = nextIdAfter l + 1 := by
  simp [nextIdAfter, List.countP_append, List.countP_cons]
  omega

/-- Appending a decode read leaves the next id unchanged. -/
theorem nextIdAfter_append_decode (l : List GpuEvent) (id c : Nat) :
    nextIdAfter (l ++ [GpuEvent.decodeChunk id c]) = nextIdAfter l := by
  simp [nextIdAfter, List.countP_append, List.countP_cons]

/-- Appending a signal leaves the next id unchanged. -/
theorem nextIdAfter_append_signal (l : List GpuEvent) (id : Nat) :
    nextIdAfter (l ++ [GpuEvent.signal id]) = nextIdAfter l := by
  simp [nextIdAfter, List.countP_append, List.countP_cons]

/-- Decode counts add over trace concatenation. -/
theorem countDecodes_append (n : Nat) (l1 l2 : List GpuEvent) :
    countDecodes n (l1 ++ l2) = countDecodes n l1 + countDecodes n l2 := by
  simp [countDecodes, List.countP_append]

/-- Decode count of a single decode read. -/
theorem countDecodes_single_decode (n i c : Nat) :
    countDecodes n [GpuEvent.decodeChunk i c] = if i = n then 1 else 0 := by
  simp only [countDecodes, List.countP_cons, List.countP_nil]
  by_cases h : i = n <;> simp [h]

/-- Decode count of a single submission. -/
theorem countDecodes_single_submit (n id : Nat) :
    countDecodes n [GpuEvent.submit id] = 0 := by
  simp [countDecodes, List.countP_cons, List.countP_nil]

/-- Decode count of a single signal. -/
theorem countDecodes_single_signal (n id : Nat) :
    countDecodes n [GpuEvent.signal id] = 0 := by
  simp [countDecodes, List.countP_cons, List.countP_nil]

/-- Every event of a valid trace satisfies `stepOK` with respect to the
state left by the events before it. -/
theorem valid_from_steps (nC : Nat → Nat) :
    ∀ (pending processed : List GpuEvent),
      valid_from nC processed (sigAfter processed) (nextIdAfter processed)
          pending = true →
      ∀ (p : Nat) (e : GpuEvent), pending[p]? = some e →
        stepOK nC (processed ++ pending.take p) e := by
  intro pending
  induction pending with
  | nil => intro processed _ p e hp; simp at hp
  | cons e0 rest ih =>
    intro processed hv p e hp
    cases e0 with
    | submit id =>
      simp only [valid_from, Bool.and_eq_true, decide_eq_true_eq] at hv
      obtain ⟨⟨h1, h2⟩, h3⟩ :
          (id = nextIdAfter processed ∧ id ≤ sigAfter processed + 1) ∧
            valid_from nC (processed ++ [GpuEvent.submit id])
              (sigAfter processed) (nextIdAfter processed + 1) rest =
              true := by tauto
      cases p with
      | zero =>
        simp only [List.getElem?_cons_zero, Option.some.injEq] at hp
        subst hp
        simp only [List.take_zero, List.append_nil]
        exact ⟨h1, h2⟩
      | succ q =>
        simp only [List.getElem?_cons_succ] at hp
        rw [← sigAfter_append_submit processed id,
          ← nextIdAfter_append_submit processed id] at h3
        have hstep := ih (processed ++ [GpuEvent.submit id]) h3 q e hp
        rw [List.take_succ_cons]
        rw [show processed ++ GpuEvent.submit id :: rest.take q =
          (processed ++ [GpuEvent.submit id]) ++ rest.take q by simp]
        exact hstep
    | decodeChunk id c =>
      simp only [valid_from, Bool.and_eq_true, decide_eq_true_eq] at hv
      obtain ⟨h0, h1, h2, h3⟩ :
          0 < id ∧ id < nextIdAfter processed ∧
            countDecodes id processed < nC id ∧
            valid_from nC (processed ++ [GpuEvent.decodeChunk id c])
              (sigAfter processed) (nextIdAfter processed) rest = true := by
        tauto
      cases p with
      | zero =>
        simp only [List.getElem?_cons_zero, Option.some.injEq] at hp
        subst hp
        simp only [List.take_zero, List.append_nil]
        exact ⟨h1, h2⟩
      | succ q =>
        simp only [List.getElem?_cons_succ] at hp
        rw [← sigAfter_append_decode processed id c,
          ← nextIdAfter_append_decode processed id c] at h3
        have hstep := ih (processed ++ [GpuEvent.decodeChunk id c]) h3 q e hp
        rw [List.take_succ_cons]
        rw [show processed ++ GpuEvent.decodeChunk id c :: rest.take q =
          (processed ++ [GpuEvent.decodeChunk id c]) ++ rest.take q by simp]
        exact hstep
    | signal id =>
      simp only [valid_from, Bool.and_eq_true, decide_eq_true_eq] at hv
      obtain ⟨h1, h3⟩ :
          countDecodes id processed = nC id ∧
            valid_from nC (processed ++ [GpuEvent.signal id]) id
              (nextIdAfter processed) rest = true := by tauto
      cases p with
      | zero =>
        simp only [List.getElem?_cons_zero, Option.some.injEq] at hp
        subst hp
        simp only [List.take_zero, List.append_nil]
        exact h1
      | succ q =>
        simp only [List.getElem?_cons_succ] at hp
        have h3' : valid_from nC (processed ++ [GpuEvent.signal id])
            (sigAfter (processed ++ [GpuEvent.signal id]))
            (nextIdAfter (processed ++ [GpuEvent.signal id])) rest =
            true := by
          rw [sigAfter_append_signal, nextIdAfter_append_signal]
          exact h3
        have hstep := ih (processed ++ [GpuEvent.signal id]) h3' q e hp
        rw [List.take_succ_cons]
        rw [show processed ++ GpuEvent.signal id :: rest.take q =
          (processed ++ [GpuEvent.signal id]) ++ rest.take q by simp]
        exact hstep

/-- A valid trace checks every event against the state before it. -/
theorem validTrace_steps (nC : Nat → Nat) (tr : List GpuEvent)
    (hv : validTrace nC tr = true) :
    ∀ (p : Nat) (e : GpuEvent), tr[p]? = some e →
      stepOK nC (tr.take p) e := by
  intro p e hp
  have h0 : valid_from nC [] (sigAfter []) (nextIdAfter []) tr = true := by
    simpa [validTrace, sigAfter, nextIdAfter] using hv
  have := valid_from_steps nC tr [] h0 p e hp
  simpa using this

/-- The prefix invariant of a valid trace: every task with id at most the
signalled value is fully decoded, every task strictly before the latest
submission is fully decoded, no task is decoded beyond its chunk count or
before its submission, and the signalled value stays below the next id. -/
theorem valid_prefix_invariant (nC : Nat → Nat) (tr : List GpuEvent)
    (hv : validTrace nC tr = true) (hpos : ∀ id, 0 < nC id) :
    ∀ p,
      (∀ k, 1 ≤ k → k ≤ sigAfter (tr.take p) →
        countDecodes k (tr.take p) = nC k) ∧
      (∀ k, 1 ≤ k → k + 1 < nextIdAfter (tr.take p) →
        countDecodes k (tr.take p) = nC k) ∧
      (∀ k, countDecodes k (tr.take p) ≤ nC k) ∧
      (∀ k, nextIdAfter (tr.take p) ≤ k → countDecodes k (tr.take p) = 0) ∧
      sigAfter (tr.take p) < nextIdAfter (tr.take p) := by
  intro p
  induction p with
  | zero =>
    refine ⟨?_, ?_, ?_, ?_, ?_⟩
    all_goals simp [sigAfter, nextIdAfter, countDecodes]
    all_goals omega
  | succ p ih =>
    by_cases hlen : tr.length ≤ p
    · rw [List.take_of_length_le (by omega)]
      rw [List.take_of_length_le hlen] at ih
      exact ih
    · push_neg at hlen
      obtain ⟨e, he⟩ : ∃ e, tr[p]? = some e :=
        ⟨tr[p], List.getElem?_eq_getElem hlen⟩
      have hstep := validTrace_steps nC tr hv p e he
      have htake : tr.take (p + 1) = tr.take p ++ [e] := by
        rw [List.take_succ, he]
        rfl
      rw [htake]
      obtain ⟨S, J, A3, A4, A1⟩ := ih
      cases e with
      | submit id =>
        simp only [stepOK] at hstep
        obtain ⟨h1, h2⟩ := hstep
        rw [sigAfter_append_submit, nextIdAfter_append_submit]
        refine ⟨?_, ?_, ?_, ?_, by omega⟩
        · intro k hk1 hk2
          rw [countDecodes_append, countDecodes_single_submit, Nat.add_zero]
          exact S k hk1 hk2
        · intro k hk1 hk2
          rw [countDecodes_append, countDecodes_single_submit, Nat.add_zero]
          by_cases hc : k + 1 < nextIdAfter (tr.take p)
          · exact J k hk1 hc
          · apply S k hk1
            omega
        · intro k
          rw [countDecodes_append, countDecodes_single_submit, Nat.add_zero]
          exact A3 k
        · intro k hk
          rw [countDecodes_append, countDecodes_single_submit, Nat.add_zero]
          exact A4 k (by omega)
      | decodeChunk id c =>
        simp only [stepOK] at hstep
        obtain ⟨h1, h2⟩ := hstep
        rw [sigAfter_append_decode, nextIdAfter_append_decode]
        refine ⟨?_, ?_, ?_, ?_, A1⟩
        · intro k hk1 hk2
          rw [countDecodes_append, countDecodes_single_decode]
          by_cases hik : id = k
          · exfalso
            subst hik
            have := S id hk1 hk2
            omega
          · rw [if_neg hik, Nat.add_zero]
            exact S k hk1 hk2
        · intro k hk1 hk2
          rw [countDecodes_append, countDecodes_single_decode]
          by_cases hik : id = k
          · exfalso
            subst hik
            have := J id hk1 hk2
            omega
          · rw [if_neg hik, Nat.add_zero]
            exact J k hk1 hk2
        · intro k
          rw [countDecodes_append, countDecodes_single_decode]
          by_cases hik : id = k
          · subst hik
            rw [if_pos rfl]
            omega
          · rw [if_neg hik, Nat.add_zero]
            exact A3 k
        · intro k hk
          rw [countDecodes_append, countDecodes_single_decode]
          by_cases hik : id = k
          · exfalso
            omega
          · rw [if_neg hik, Nat.add_zero]
            exact A4 k hk
      | signal id =>
        simp only [stepOK] at hstep
        rw [sigAfter_append_signal, nextIdAfter_append_signal]
        have hid_lt : id < nextIdAfter (tr.take p) := by
          by_contra hc
          push_neg at hc
          have h4 := A4 id hc
          have h5 := hpos id
          omega
        refine ⟨?_, ?_, ?_, ?_, hid_lt⟩
        · intro k hk1 hk2
          rw [countDecodes_append, countDecodes_single_signal, Nat.add_zero]
          rcases Nat.lt_or_ge k id with hlt | hge
          · exact J k hk1 (by omega)
          · have hkid : k = id := by omega
            subst hkid
            exact hstep
        · intro k hk1 hk2
          rw [countDecodes_append, countDecodes_single_signal, Nat.add_zero]
          exact J k hk1 hk2
        · intro k
          rw [countDecodes_append, countDecodes_single_signal, Nat.add_zero]
          exact A3 k
        · intro k hk
          rw [countDecodes_append, countDecodes_single_signal, Nat.add_zero]
          exact A4 k hk

/-- Submission ids accumulate one per submission. -/
theorem submit_ids_append_submit (l : List GpuEvent) (id : Nat) :
    submit_ids (l ++ [GpuEvent.submit id]) = submit_ids l ++ [id] := by
  simp [submit_ids, List.filterMap_append]

/-- A decode read contributes no submission id. -/
theorem submit_ids_append_decode (l : List GpuEvent) (id c : Nat) :
    submit_ids (l ++ [GpuEvent.decodeChunk id c]) = submit_ids l := by
  simp [submit_ids, List.filterMap_append]

/-- A signal contributes no submission id. -/
theorem submit_ids_append_signal (l : List GpuEvent) (id : Nat) :
    submit_ids (l ++ [GpuEvent.signal id]) = submit_ids l := by
  simp [submit_ids, List.filterMap_append]

/-- The next id is always at least 1. -/
theorem one_le_nextIdAfter (l : List GpuEvent) : 1 ≤ nextIdAfter l := by
  simp [nextIdAfter]

/-- Along a valid trace the submission ids extend the sequence
`1, 2, 3, ...` one id at a time. -/
theorem submit_ids_from (nC : Nat → Nat) :
    ∀ (pending processed : List GpuEvent),
      valid_from nC processed (sigAfter processed) (nextIdAfter processed)
          pending = true →
      submit_ids processed = List.range' 1 (nextIdAfter processed - 1) →
      submit_ids (processed ++ pending) =
        List.range' 1 (nextIdAfter (processed ++ pending) - 1) := by
  intro pending
  induction pending with
  | nil =>
    intro processed _ hids
    simpa using hids
  | cons e0 rest ih =>
    intro processed hv hids
    cases e0 with
    | submit id =>
      simp only [valid_from, Bool.and_eq_true, decide_eq_true_eq] at hv
      obtain ⟨⟨h1, h2⟩, h3⟩ :
          (id = nextIdAfter processed ∧ id ≤ sigAfter processed + 1) ∧
            valid_from nC (processed ++ [GpuEvent.submit id])
              (sigAfter processed) (nextIdAfter processed + 1) rest =
              true := by tauto
      have hone := one_le_nextIdAfter processed
      have hids2 : submit_ids (processed ++ [GpuEvent.submit id]) =
          List.range' 1
            (nextIdAfter (processed ++ [GpuEvent.submit id]) - 1) := by
        rw [submit_ids_append_submit, hids, nextIdAfter_append_submit]
        rw [show nextIdAfter processed + 1 - 1 =
          (nextIdAfter processed - 1) + 1 by omega]
        rw [List.range'_concat]
        rw [h1]
        congr 2
        omega
      rw [← sigAfter_append_submit processed id,
        ← nextIdAfter_append_submit processed id] at h3
      have := ih (processed ++ [GpuEvent.submit id]) h3 hids2
      rw [show processed ++ GpuEvent.submit id :: rest =
        (processed ++ [GpuEvent.submit id]) ++ rest by simp]
      exact this
    | decodeChunk id c =>
      simp only [valid_from, Bool.and_eq_true, decide_eq_true_eq] at hv
      obtain ⟨h0, h1, h2, h3⟩ :
          0 < id ∧ id < nextIdAfter processed ∧
            countDecodes id processed < nC id ∧
            valid_from nC (processed ++ [GpuEvent.decodeChunk id c])
              (sigAfter processed) (nextIdAfter processed) rest = true := by
        tauto
      have hids2 : submit_ids (processed ++ [GpuEvent.decodeChunk id c]) =
          List.range' 1
            (nextIdAfter (processed ++ [GpuEvent.decodeChunk id c]) - 1) := by
        rw [submit_ids_append_decode, hids, nextIdAfter_append_decode]
      rw [← sigAfter_append_decode processed id c,
        ← nextIdAfter_append_decode processed id c] at h3
      have := ih (processed ++ [GpuEvent.decodeChunk id c]) h3 hids2
      rw [show processed ++ GpuEvent.decodeChunk id c :: rest =
        (processed ++ [GpuEvent.decodeChunk id c]) ++ rest by simp]
      exact this
    | signal id =>
      simp only [valid_from, Bool.and_eq_true, decide_eq_true_eq] at hv
      obtain ⟨h1, h3⟩ :
          countDecodes id processed = nC id ∧
            valid_from nC (processed ++ [GpuEvent.signal id]) id
              (nextIdAfter processed) rest = true := by tauto
      have hids2 : submit_ids (processed ++ [GpuEvent.signal id]) =
          List.range' 1
            (nextIdAfter (processed ++ [GpuEvent.signal id]) - 1) := by
        rw [submit_ids_append_signal, hids, nextIdAfter_append_signal]
      have h3' : valid_from nC (processed ++ [GpuEvent.signal id])
          (sigAfter (processed ++ [GpuEvent.signal id]))
          (nextIdAfter (processed ++ [GpuEvent.signal id])) rest = true := by
        rw [sigAfter_append_signal, nextIdAfter_append_signal]
        exact h3
      have := ih (processed ++ [GpuEvent.signal id]) h3' hids2
      rw [show processed ++ GpuEvent.signal id :: rest =
        (processed ++ [GpuEvent.signal id]) ++ rest by simp]
      exact this

/-- C2: in every valid trace the completion-event ids are assigned to
submissions in strictly increasing order `1, 2, 3, ...`; the submission
with id `N` starts only once the signalled value has reached `N - 1`
(the wait `forward_async` encodes); the event value `N` is signalled only
when every chunk of task `N` has been decoded; and consequently the
accelerator never begins overwriting the shared buffers for task `N + 1`
before every decode read for task `N` has completed. -/
theorem c2_event_ordering (nC : Nat → Nat) (tr : List GpuEvent)
    (hv : validTrace nC tr = true) (hpos : ∀ id, 0 < nC id) :
    submit_ids tr = List.range' 1 (nextIdAfter tr - 1) ∧
    (∀ p id, tr[p]? = some (GpuEvent.submit id) →
      id = nextIdAfter (tr.take p) ∧ id ≤ sigAfter (tr.take p) + 1) ∧
    (∀ p id, tr[p]? = some (GpuEvent.signal id) →
      countDecodes id (tr.take p) = nC id) ∧
    (∀ (p q n c : Nat), 0 < n → tr[p]? = some (GpuEvent.submit (n + 1)) →
      tr[q]? = some (GpuEvent.decodeChunk n c) → q < p) := by
  have h0 : valid_from nC [] (sigAfter []) (nextIdAfter []) tr = true := by
    simpa [validTrace, sigAfter, nextIdAfter] using hv
  refine ⟨?_, ?_, ?_, ?_⟩
  · have := submit_ids_from nC tr [] h0 (by simp [submit_ids, nextIdAfter])
    simpa using this
  · intro p id hp
    have hstep := validTrace_steps nC tr hv p _ hp
    simpa only [stepOK] using hstep
  · intro p id hp
    have hstep := validTrace_steps nC tr hv p _ hp
    simpa only [stepOK] using hstep
  · intro p q n c hn hsub hdec
    have hstepP := validTrace_steps nC tr hv p _ hsub
    simp only [stepOK] at hstepP
    obtain ⟨hp1, hp2⟩ := hstepP
    have hsig : n ≤ sigAfter (tr.take p) := by omega
    obtain ⟨S, _, _, _, _⟩ := valid_prefix_invariant nC tr hv hpos p
    have hcount : countDecodes n (tr.take p) = nC n := S n hn hsig
    by_contra hqp
    push_neg at hqp
    obtain ⟨_, _, A3q, _, _⟩ := valid_prefix_invariant nC tr hv hpos (q + 1)
    have hA3 := A3q n
    have hsplit : tr.take (q + 1) = tr.take p ++ (tr.take (q + 1)).drop p := by
      have h1 : (tr.take (q + 1)).take p = tr.take p := by
        rw [List.take_take]
        congr 1
        omega
      conv_lhs => rw [← List.take_append_drop p (tr.take (q + 1))]
      rw [h1]
    have hget : ((tr.take (q + 1)).drop p)[q - p]? =
        some (GpuEvent.decodeChunk n c) := by
      rw [List.getElem?_drop]
      rw [show p + (q - p) = q by omega]
      rw [List.getElem?_take]
      rw [if_pos (by omega)]
      exact hdec
    have hmem : GpuEvent.decodeChunk n c ∈ (tr.take (q + 1)).drop p :=
      List.getElem?_mem hget
    have hone : 0 < countDecodes n ((tr.take (q + 1)).drop p) := by
      unfold countDecodes
      rw [List.countP_pos_iff]
      exact ⟨GpuEvent.decodeChunk n c, hmem, by simp⟩
    rw [hsplit, countDecodes_append] at hA3
    omega

/-- Witness for C2: two one-chunk tasks submitted, decoded and signalled
in order. -/
theorem c2_event_ordering_witness :
    submit_ids
        [GpuEvent.submit 1, GpuEvent.decodeChunk 1 0, GpuEvent.signal 1,
          GpuEvent.submit 2, GpuEvent.decodeChunk 2 0, GpuEvent.signal 2] =
      List.range' 1
        (nextIdAfter
            [GpuEvent.submit 1, GpuEvent.decodeChunk 1 0, GpuEvent.signal 1,
              GpuEvent.submit 2, GpuEvent.decodeChunk 2 0,
              GpuEvent.signal 2] - 1) ∧
    (∀ p id,
      [GpuEvent.submit 1, GpuEvent.decodeChunk 1 0, GpuEvent.signal 1,
          GpuEvent.submit 2, GpuEvent.decodeChunk 2 0,
          GpuEvent.signal 2][p]? = some (GpuEvent.submit id) →
      id = nextIdAfter
          ([GpuEvent.submit 1, GpuEvent.decodeChunk 1 0, GpuEvent.signal 1,
            GpuEvent.submit 2, GpuEvent.decodeChunk 2 0,
            GpuEvent.signal 2].take p) ∧
      id ≤ sigAfter
          ([GpuEvent.submit 1, GpuEvent.decodeChunk 1 0, GpuEvent.signal 1,
            GpuEvent.submit 2, GpuEvent.decodeChunk 2 0,
            GpuEvent.signal 2].take p) + 1) ∧
    (∀ p id,
      [GpuEvent.submit 1, GpuEvent.decodeChunk 1 0, GpuEvent.signal 1,
          GpuEvent.submit 2, GpuEvent.decodeChunk 2 0,
          GpuEvent.signal 2][p]? = some (GpuEvent.signal id) →
      countDecodes id
          ([GpuEvent.submit 1, GpuEvent.decodeChunk 1 0, GpuEvent.signal 1,
            GpuEvent.submit 2, GpuEvent.decodeChunk 2 0,
            GpuEvent.signal 2].take p) = (fun _ => 1) id) ∧
    (∀ (p q n c : Nat), 0 < n →
      [GpuEvent.submit 1, GpuEvent.decodeChunk 1 0, GpuEvent.signal 1,
          GpuEvent.submit 2, GpuEvent.decodeChunk 2 0,
          GpuEvent.signal 2][p]? = some (GpuEvent.submit (n + 1)) →
      [GpuEvent.submit 1, GpuEvent.decodeChunk 1 0, GpuEvent.signal 1,
          GpuEvent.submit 2, GpuEvent.decodeChunk 2 0,
          GpuEvent.signal 2][q]? = some (GpuEvent.decodeChunk n c) →
      q < p) :=
  c2_event_ordering (fun _ => 1)
    [GpuEvent.submit 1, GpuEvent.decodeChunk 1 0, GpuEvent.signal 1,
      GpuEvent.submit 2, GpuEvent.decodeChunk 2 0, GpuEvent.signal 2]
    (by decide) (fun _ => Nat.one_pos)

end MetalCaller
